import Mathlib

/-!
A shallow embedding of the crawllm crawler (src/index.ts, the path-scoped
engine, and src/unnamed/part_000, the host-only engine) together with a
model of the external WHATWG URL library (the url module) restricted to
host-based (http/https style) URLs: scheme://host/path?query#fragment.
Ports, userinfo, percent-encoding, dot-segment removal and opaque-path
schemes (such as mailto:) are outside the model; no claim depends on them.
-/

namespace Crawllm

/-- ASCII lowercasing of one character, as the URL parser lowercases the
scheme and the host. -/
def charLower (c : Char) : Char :=
  if 'A' ≤ c ∧ c ≤ 'Z' then Char.ofNat (c.toNat + 32) else c

/-- Lowercase a string character by character (ASCII). -/
def strLower (s : String) : String :=
  String.mk (s.data.map charLower)

/-- Split a character list at the first character belonging to stops:
returns the prefix of non-stop characters and the remainder (which is
empty or begins with a stop character). -/
def takeUntil (stops : List Char) : List Char → List Char × List Char
  | [] => ([], [])
  | c :: cs =>
    if stops.contains c then ([], c :: cs)
    else
      let p := takeUntil stops cs
      (c :: p.1, p.2)

/-- Remove the first occurrence of the pattern pat as a contiguous
sublist, as the JavaScript expression s.replace(pat, "") does for string
patterns (it replaces only the first occurrence). -/
def removeFirstSub (pat : List Char) : List Char → List Char
  | [] => []
  | c :: cs =>
    if pat.isPrefixOf (c :: cs) then (c :: cs).drop pat.length
    else c :: removeFirstSub pat cs

/-- Whether pat occurs as a contiguous sublist. -/
def hasSub (pat : List Char) : List Char → Bool
  | [] => pat.isEmpty
  | c :: cs => pat.isPrefixOf (c :: cs) || hasSub pat cs

/-- s starts with p (models JavaScript String.startsWith). -/
def strStartsWith (s p : String) : Bool :=
  p.data.isPrefixOf s.data

/-- s ends with p (models the anchored regular expressions of the source). -/
def strEndsWith (s p : String) : Bool :=
  p.data.isSuffixOf s.data

/-- hostname.replace("www.", "") from src/index.ts line 121: removes the
first occurrence of "www." anywhere in the hostname. -/
def stripFirstWww (s : String) : String :=
  String.mk (removeFirstSub "www.".data s.data)

/-- Modelled from the spec: stripping a leading "www." label (and only a
leading one) from a hostname, the comparison the claim about the domain
check describes. -/
def stripLeadingWww (s : String) : String :=
  if strStartsWith s "www." then String.mk (s.data.drop 4) else s

/-- path.replace of an optional trailing slash by a slash
(src/index.ts lines 52 and 123): guarantee a trailing slash. -/
def ensureSlash (s : String) : String :=
  if strEndsWith s "/" then s else s ++ "/"

/-- The asset-extension filter of src/index.ts line 113 and
src/unnamed/part_000 line 108: the regular expression
matching .jpg .jpeg .png .gif .svg .ico .css .js, case-insensitively,
anchored at the end of the raw href string. -/
def isAssetHref (href : String) : Bool :=
  [".jpg", ".jpeg", ".png", ".gif", ".svg", ".ico", ".css", ".js"].any
    (fun e => strEndsWith (strLower href) e)

/-- A parsed URL in the model: scheme://host/path?query#hash with the
query given without the question mark and the hash without the hash sign. -/
structure URLRec where
  scheme : String
  host : String
  path : String
  query : String
  hash : String
deriving Repr, DecidableEq

/-- Serialization, as URL.toString: the query appears with a question
mark only when nonempty, the fragment with a hash sign only when
nonempty. -/
def urlToString (u : URLRec) : String :=
  u.scheme ++ "://" ++ u.host ++ u.path ++
    (if u.query = "" then "" else "?" ++ u.query) ++
    (if u.hash = "" then "" else "#" ++ u.hash)

/-- Parsing an absolute URL, modelling new URL(s) for host-based URLs:
scheme up to the first colon (letters only, lowercased), then "//", a
nonempty host up to a slash, question mark or hash sign (lowercased),
then path, query and fragment. An empty path serializes and parses
as "/". Returns none where new URL throws. -/
def parseURL (s : String) : Option URLRec :=
  let p1 := takeUntil [':'] s.data
  match p1.2 with
  | ':' :: '/' :: '/' :: r2 =>
    if p1.1.isEmpty || !(p1.1.all Char.isAlpha) then none
    else
      let ph := takeUntil ['/', '?', '#'] r2
      if ph.1.isEmpty then none
      else
        let pp := takeUntil ['?', '#'] ph.2
        let pq : List Char × List Char :=
          match pp.2 with
          | '?' :: qs => takeUntil ['#'] qs
          | r4 => ([], r4)
        let hashCs : List Char :=
          match pq.2 with
          | '#' :: hs => hs
          | _ => []
        some { scheme := String.mk (p1.1.map charLower),
               host := String.mk (ph.1.map charLower),
               path := if pp.1.isEmpty then "/" else String.mk pp.1,
               query := String.mk pq.1,
               hash := String.mk hashCs }
  | _ => none

/-- The directory part of a path: everything up to and including the
last slash. -/
def dirOf (path : List Char) : List Char :=
  (path.reverse.dropWhile (fun c => c ≠ '/')).reverse

/-- Parse path, query and fragment from a character list that begins a
path-query-fragment suffix. -/
def splitPathRef (cs : List Char) : List Char × List Char × List Char :=
  let pp := takeUntil ['?', '#'] cs
  let pq : List Char × List Char :=
    match pp.2 with
    | '?' :: qs => takeUntil ['#'] qs
    | r => ([], r)
  let hashCs : List Char :=
    match pq.2 with
    | '#' :: hs => hs
    | _ => []
  (pp.1, pq.1, hashCs)

/-- Resolution of a reference against a base, modelling new URL(href, base)
for the forms the crawler meets: absolute URLs, scheme-relative,
absolute-path, query-only, fragment-only and relative-path references
(relative paths are merged with the directory of the base path;
dot segments are not interpreted, and no claim exercises them). -/
def resolveURL (href : String) (base : URLRec) : Option URLRec :=
  match parseURL href with
  | some u => some u
  | none =>
    match href.data with
    | [] => some { base with hash := "" }
    | '/' :: '/' :: _ => parseURL (base.scheme ++ ":" ++ href)
    | '/' :: _ =>
      let t := splitPathRef href.data
      some { base with path := String.mk t.1, query := String.mk t.2.1,
                       hash := String.mk t.2.2 }
    | '?' :: qs =>
      let pq := takeUntil ['#'] qs
      let hashCs : List Char :=
        match pq.2 with
        | '#' :: hs => hs
        | _ => []
      some { base with query := String.mk pq.1, hash := String.mk hashCs }
    | '#' :: hs => some { base with hash := String.mk hs }
    | _ =>
      let t := splitPathRef href.data
      some { base with path := String.mk (dirOf base.path.data ++ t.1),
                       query := String.mk t.2.1, hash := String.mk t.2.2 }

/-- new URL(href, cur) where the base is itself a string: the base is
parsed first and a failure to parse it is a failure of the whole
resolution. -/
def resolveM (href cur : String) : Option URLRec :=
  (parseURL cur).bind (fun b => resolveURL href b)

/-- normalizeUrl from src/index.ts lines 12 to 20 (identical in
src/unnamed/part_000): parse, erase the fragment and serialize; when
parsing fails the catch branch returns the input string unchanged. -/
def normalizeUrl (url : String) : String :=
  match parseURL url with
  | some u => urlToString { u with hash := "" }
  | none => url

/-- Well-formedness of a URL record for the parse-serialize roundtrip:
lowercase alphabetic nonempty scheme, nonempty lowercase host free of
delimiters, a path that starts with a slash and is free of the question
mark and hash sign, a query free of the hash sign. The fragment is
unconstrained. -/
def WFb (u : URLRec) : Bool :=
  !u.scheme.data.isEmpty &&
  u.scheme.data.all (fun c => c.isAlpha && charLower c == c) &&
  !u.host.data.isEmpty &&
  u.host.data.all (fun c => !(['/', '?', '#'].contains c) && charLower c == c) &&
  strStartsWith u.path "/" &&
  u.path.data.all (fun c => !(['?', '#'].contains c)) &&
  u.query.data.all (fun c => !(['#'].contains c))

example : parseURL "https://a.com/x#sec1" =
    some ⟨"https", "a.com", "/x", "", "sec1"⟩ := by decide

example : normalizeUrl "https://a.com/x#sec1" = "https://a.com/x" := by decide

example : parseURL "not a url" = none := by decide

example : resolveM "/img.png#top" "https://a.com/" =
    some ⟨"https", "a.com", "/img.png", "", "top"⟩ := by decide

example : stripFirstWww "foo.www.example.com" = "foo.example.com" := by decide

example : isAssetHref "/IMG.PNG" = true := by decide

example : isAssetHref "/img.png#top" = false := by decide

/-! The parsed document tree (the external cheerio collaborator): elements
with a tag, an attribute list and children, and text nodes. A mutual
inductive is used so the tree functions are structural and reduce in the
kernel. -/

mutual
inductive Node where
  | elem (tag : String) (attrs : List (String × String)) (children : NodeList)
  | text (s : String)
inductive NodeList where
  | nil
  | cons (n : Node) (ns : NodeList)
end

/-- First value of the named attribute, as cheerio attr. -/
def attrsFind (attrs : List (String × String)) (name : String) : Option String :=
  match attrs.find? (fun p => p.1 == name) with
  | some p => some p.2
  | none => none

/-- The selector forms the two cleaners use: tag name, class token,
id value, role attribute value. -/
inductive Sel where
  | tagSel (t : String)
  | clsSel (c : String)
  | idSel (i : String)
  | roleSel (r : String)

/-- Whether a node matches a selector; a class selector matches a
whitespace-separated token of the class attribute. -/
def matchesSel (s : Sel) : Node → Bool
  | .text _ => false
  | .elem t attrs _ =>
    match s with
    | .tagSel tg => t == tg
    | .clsSel c =>
      match attrsFind attrs "class" with
      | some v => (v.splitOn " ").contains c
      | none => false
    | .idSel i => attrsFind attrs "id" == some i
    | .roleSel r => attrsFind attrs "role" == some r

mutual
/-- Remove every descendant subtree whose root matches p, as a
cheerio remove call on a selector does. The root node itself is the
document container and is not removed. -/
def removeAllN (p : Node → Bool) : Node → Node
  | .text s => .text s
  | .elem t attrs cs => .elem t attrs (removeAllL p cs)
def removeAllL (p : Node → Bool) : NodeList → NodeList
  | .nil => .nil
  | .cons n ns =>
    if p n then removeAllL p ns
    else .cons (removeAllN p n) (removeAllL p ns)
end

/-- Apply one selector removal to the document. -/
def removeSel (s : Sel) (d : Node) : Node :=
  removeAllN (matchesSel s) d

/-- The selector sequence of cleanHtmlContent in src/index.ts lines 57
to 92, flattened in source order. -/
def selsIndex : List Sel :=
  [.tagSel "nav", .tagSel "footer",
   .clsSel "navigation", .clsSel "nav", .clsSel "navbar", .clsSel "menu",
   .idSel "navbar", .idSel "navigation", .idSel "menu", .idSel "header",
   .idSel "footer",
   .clsSel "footer",
   .clsSel "sidebar", .clsSel "aside",
   .tagSel "aside", .tagSel "script", .tagSel "style", .tagSel "iframe",
   .tagSel "video", .tagSel "audio", .tagSel "img", .tagSel "svg",
   .tagSel "canvas", .tagSel "form", .tagSel "input", .tagSel "button",
   .tagSel "select", .tagSel "textarea", .tagSel "link", .tagSel "meta",
   .roleSel "navigation", .roleSel "banner", .roleSel "contentinfo",
   .idSel "header", .idSel "footer", .idSel "nav", .idSel "navigation",
   .idSel "menu",
   .clsSel "social-links", .clsSel "social-media",
   .clsSel "breadcrumbs"]

/-- cleanHtmlContent of src/index.ts: the selector removals applied in
source order. -/
def cleanIndex (d : Node) : Node :=
  selsIndex.foldl (fun acc s => removeSel s acc) d

/-- The selector sequence of cleanHtmlContent in src/unnamed/part_000
lines 55 to 74, flattened in source order. -/
def sels000 : List Sel :=
  [.tagSel "nav", .tagSel "header", .tagSel "footer",
   .clsSel "navigation", .clsSel "nav", .clsSel "navbar", .clsSel "menu",
   .clsSel "header", .clsSel "footer",
   .clsSel "sidebar", .clsSel "aside",
   .tagSel "aside", .tagSel "script", .tagSel "style",
   .roleSel "navigation", .roleSel "banner", .roleSel "contentinfo",
   .idSel "header", .idSel "footer", .idSel "nav", .idSel "navigation",
   .idSel "menu",
   .clsSel "social-links", .clsSel "social-media",
   .clsSel "breadcrumbs"]

/-- cleanHtmlContent of src/unnamed/part_000. -/
def clean000 (d : Node) : Node :=
  sels000.foldl (fun acc s => removeSel s acc) d

mutual
/-- The href attribute values of the anchor elements carrying one, in
document (preorder) order, as iterating cheerio a[href] does. -/
def extractHrefsN : Node → List String
  | .text _ => []
  | .elem t attrs cs =>
    (match (if t == "a" then attrsFind attrs "href" else none) with
     | some v => [v]
     | none => []) ++ extractHrefsL cs
def extractHrefsL : NodeList → List String
  | .nil => []
  | .cons n ns => extractHrefsN n ++ extractHrefsL ns
end

/-! The crawl engine. -/

/-- A recorded page: its normalized URL and converted content. -/
structure Page where
  url : String
  content : String
deriving Repr, DecidableEq

/-- The scope derived once from the seed in src/index.ts lines 50 to 52:
baseDomain is the seed hostname and basePath the seed path with a
guaranteed trailing slash. -/
structure ScopeCfg where
  baseDomain : String
  basePath : String

/-- The domain check of src/index.ts lines 120 to 122: hostnames compared
after removing the first occurrence of "www." from each. -/
def sameDomainCheck (h bd : String) : Bool :=
  stripFirstWww h == stripFirstWww bd

/-- The body of the anchor callback of src/index.ts lines 107 to 133 for
one href: skip an absent-or-empty href, skip asset hrefs, resolve against
the current URL, erase the fragment, serialize, then enqueue when the
domain check, the path check and the visited check all pass. The hostname
and path are read from the resolved object (erasing the fragment does not
change them). -/
def processHref (cfg : ScopeCfg) (visited : List String) (cur href : String) :
    Option String :=
  if href = "" then none
  else if isAssetHref href then none
  else
    match resolveM href cur with
    | none => none
    | some u0 =>
      let normalized := urlToString { u0 with hash := "" }
      if sameDomainCheck u0.host cfg.baseDomain
          && strStartsWith (ensureSlash u0.path) cfg.basePath
          && !(visited.contains normalized) then
        some normalized
      else none

/-- The links one page offers to the queue in src/index.ts: the anchor
callback runs over the document as parsed, before cleanHtmlContent. -/
def linksIndex (cfg : ScopeCfg) (visited : List String) (cur : String)
    (doc : Node) : List String :=
  (extractHrefsN doc).filterMap (processHref cfg visited cur)

/-- The body of the anchor callback of src/unnamed/part_000 lines 102 to
122 for one href: as processHref but with exact hostname equality and no
path check. -/
def processHref000 (baseDomain : String) (visited : List String)
    (cur href : String) : Option String :=
  if href = "" then none
  else if isAssetHref href then none
  else
    match resolveM href cur with
    | none => none
    | some u0 =>
      let normalized := urlToString { u0 with hash := "" }
      if u0.host == baseDomain && !(visited.contains normalized) then
        some normalized
      else none

/-- The links one page offers to the queue in src/unnamed/part_000: there
the anchor callback runs only after cleanHtmlContent has mutated the
tree, so the hrefs come from the cleaned document. -/
def links000 (baseDomain : String) (visited : List String) (cur : String)
    (doc : Node) : List String :=
  (extractHrefsN (clean000 doc)).filterMap (processHref000 baseDomain visited cur)

/-- The mutable state of crawlWebsite: the FIFO queue, the visited set
(as its insertion sequence), the accumulated pages, and the log of the
URLs handed to fetchPage. -/
structure CrawlState where
  queue : List String
  visited : List String
  pages : List Page
  fetched : List String
deriving Repr, DecidableEq

/-- The while loop of crawlWebsite (src/index.ts lines 94 to 147),
parameterized by the per-page link computation so that both engines are
instances. fuel bounds the number of iterations; the source loop has no
bound and may diverge on an infinite site. One iteration: shift the
queue; skip a visited URL; otherwise add it to visited, fetch; on fetch
failure continue; on success push the offered links (computed with the
updated visited set) and append the page record. -/
def crawlLoop (links : List String → String → Node → List String)
    (web : String → Option Node) (conv : Node → String) :
    Nat → CrawlState → CrawlState
  | 0, s => s
  | fuel + 1, s =>
    match s.queue with
    | [] => s
    | cur :: rest =>
      if s.visited.contains cur then
        crawlLoop links web conv fuel { s with queue := rest }
      else
        let visited' := s.visited ++ [cur]
        let fetched' := s.fetched ++ [cur]
        match web cur with
        | none => crawlLoop links web conv fuel
            ⟨rest, visited', s.pages, fetched'⟩
        | some doc => crawlLoop links web conv fuel
            ⟨rest ++ links visited' cur doc, visited',
             s.pages ++ [⟨cur, conv doc⟩], fetched'⟩

/-- The crawl loop of src/index.ts from the initial state: the queue
holds the single seed, everything else is empty. web is the composite of
the fetch and parse collaborators (none on fetch failure) and conv the
composite of serialization and markdown conversion applied to the
cleaned tree. -/
def crawlIndex (cfg : ScopeCfg) (web : String → Option Node)
    (conv : Node → String) (fuel : Nat) (seed : String) : CrawlState :=
  crawlLoop (linksIndex cfg) web conv fuel ⟨[seed], [], [], []⟩

/-- crawlWebsite of src/index.ts lines 43 to 160 up to the final render:
normalize the seed, derive the scope from it (new URL on the normalized
seed, which throws, modelled as none, when it does not parse), then run
the loop; each recorded content is the conversion of the cleaned tree. -/
def crawlWebsite (web : String → Option Node) (conv : Node → String)
    (fuel : Nat) (startUrl : String) : Option CrawlState :=
  let ns := normalizeUrl startUrl
  match parseURL ns with
  | none => none
  | some so =>
    some (crawlIndex ⟨so.host, ensureSlash so.path⟩ web
      (fun d => conv (cleanIndex d)) fuel ns)

/-- The output assembly of src/index.ts lines 150 to 155: a title line,
then for each page a section header with its URL, its content and a
separator, folded left over the pages in order. -/
def renderOutput (pages : List Page) : String :=
  pages.foldl
    (fun acc p => acc ++ ("## " ++ p.url ++ "\n\n") ++ (p.content ++ "\n\n")
      ++ "---\n\n")
    "# Crawled Website Content\n\n"

/-- Modelled from the spec: the section sequence the aggregation claim
describes, one header-content-separator triple per page in order. -/
def sectionsOf : List Page → String
  | [] => ""
  | p :: ps => ("## " ++ p.url ++ "\n\n" ++ p.content ++ "\n\n" ++ "---\n\n")
      ++ sectionsOf ps

/-- The URLs reachable through the index engine: the seed, and every link
a successfully fetched reachable page offers when the visited filter is
empty. -/
inductive Reachable (cfg : ScopeCfg) (web : String → Option Node)
    (root : String) : String → Prop where
  | base : Reachable cfg web root root
  | step {u v : String} {doc : Node} : Reachable cfg web root u →
      web u = some doc → v ∈ linksIndex cfg [] u doc →
      Reachable cfg web root v

/-! Helper lemmas about the crawl loop. -/

/-- Any property closed under the three loop transitions (skip of a
visited URL, fetch failure, fetch success) is preserved by the loop. -/
theorem crawlLoop_preserve (links : List String → String → Node → List String)
    (web : String → Option Node) (conv : Node → String)
    (P : CrawlState → Prop)
    (h1 : ∀ s cur rest, s.queue = cur :: rest →
      s.visited.contains cur = true → P s → P { s with queue := rest })
    (h2 : ∀ s cur rest, s.queue = cur :: rest →
      s.visited.contains cur = false → web cur = none → P s →
      P ⟨rest, s.visited ++ [cur], s.pages, s.fetched ++ [cur]⟩)
    (h3 : ∀ s cur rest doc, s.queue = cur :: rest →
      s.visited.contains cur = false → web cur = some doc → P s →
      P ⟨rest ++ links (s.visited ++ [cur]) cur doc, s.visited ++ [cur],
         s.pages ++ [⟨cur, conv doc⟩], s.fetched ++ [cur]⟩) :
    ∀ (fuel : Nat) (s : CrawlState), P s →
      P (crawlLoop links web conv fuel s) := by
  intro fuel
  induction fuel with
  | zero => intro s hP; simpa [crawlLoop] using hP
  | succ n ih =>
    intro s hP
    rw [crawlLoop]
    cases hq : s.queue with
    | nil => simp only [hq]; exact hP
    | cons cur rest =>
      simp only [hq]
      cases hv : s.visited.contains cur with
      | true =>
        simp only [hv, if_true]
        exact ih _ (h1 s cur rest hq hv hP)
      | false =>
        simp only [hv, Bool.false_eq_true, if_false]
        cases hw : web cur with
        | none => exact ih _ (h2 s cur rest hq hv hw hP)
        | some doc => exact ih _ (h3 s cur rest doc hq hv hw hP)

/-- The visited set only grows. -/
theorem crawlLoop_visited_mono (links : List String → String → Node → List String)
    (web : String → Option Node) (conv : Node → String) (x : String)
    (fuel : Nat) (s : CrawlState) (hx : x ∈ s.visited) :
    x ∈ (crawlLoop links web conv fuel s).visited := by
  refine crawlLoop_preserve links web conv (fun t => x ∈ t.visited)
    ?_ ?_ ?_ fuel s hx
  · intro s cur rest _ _ h; exact h
  · intro s cur rest _ _ _ h; exact List.mem_append_left _ h
  · intro s cur rest doc _ _ _ h; exact List.mem_append_left _ h

/-- The fetch log only grows. -/
theorem crawlLoop_fetched_mono (links : List String → String → Node → List String)
    (web : String → Option Node) (conv : Node → String) (x : String)
    (fuel : Nat) (s : CrawlState) (hx : x ∈ s.fetched) :
    x ∈ (crawlLoop links web conv fuel s).fetched := by
  refine crawlLoop_preserve links web conv (fun t => x ∈ t.fetched)
    ?_ ?_ ?_ fuel s hx
  · intro s cur rest _ _ h; exact h
  · intro s cur rest _ _ _ h; exact List.mem_append_left _ h
  · intro s cur rest doc _ _ _ h; exact List.mem_append_left _ h

/-- Recorded page URLs are never removed. -/
theorem crawlLoop_pages_mono (links : List String → String → Node → List String)
    (web : String → Option Node) (conv : Node → String) (x : String)
    (fuel : Nat) (s : CrawlState) (hx : x ∈ s.pages.map Page.url) :
    x ∈ (crawlLoop links web conv fuel s).pages.map Page.url := by
  refine crawlLoop_preserve links web conv (fun t => x ∈ t.pages.map Page.url)
    ?_ ?_ ?_ fuel s hx
  · intro s cur rest _ _ h; exact h
  · intro s cur rest _ _ _ h; exact h
  · intro s cur rest doc _ _ _ h
    simpa using Or.inl (by simpa using h)

/-- A URL in the queue ends up visited or still queued. -/
theorem crawlLoop_queue_absorb (links : List String → String → Node → List String)
    (web : String → Option Node) (conv : Node → String) (x : String)
    (fuel : Nat) (s : CrawlState) (hx : x ∈ s.visited ∨ x ∈ s.queue) :
    x ∈ (crawlLoop links web conv fuel s).visited ∨
      x ∈ (crawlLoop links web conv fuel s).queue := by
  refine crawlLoop_preserve links web conv
    (fun t => x ∈ t.visited ∨ x ∈ t.queue) ?_ ?_ ?_ fuel s hx
  · intro s cur rest hq hv h
    rcases h with h | h
    · exact Or.inl h
    · rw [hq] at h
      rcases List.mem_cons.mp h with h | h
      · exact Or.inl (h ▸ List.elem_iff.mp hv)
      · exact Or.inr h
  · intro s cur rest hq _ _ h
    rcases h with h | h
    · exact Or.inl (List.mem_append_left _ h)
    · rw [hq] at h
      rcases List.mem_cons.mp h with h | h
      · exact Or.inl (List.mem_append_right _ (by simp [h]))
      · exact Or.inr h
  · intro s cur rest doc hq _ _ h
    rcases h with h | h
    · exact Or.inl (List.mem_append_left _ h)
    · rw [hq] at h
      rcases List.mem_cons.mp h with h | h
      · exact Or.inl (List.mem_append_right _ (by simp [h]))
      · exact Or.inr (List.mem_append_left _ h)

/-- A false contains test is non-membership. -/
theorem not_mem_of_contains_false {l : List String} {a : String}
    (h : l.contains a = false) : a ∉ l := by
  intro hm
  simp [List.elem_iff.mpr hm] at h
  exact h hm

/-- The dedup invariant of the loop: the visited sequence is exactly the
fetch log, the fetch log and the recorded page URLs are duplicate-free,
every recorded URL is visited and was fetched successfully, and every
visited URL whose fetch succeeds is recorded. -/
def DInv (web : String → Option Node) (s : CrawlState) : Prop :=
  s.visited = s.fetched ∧
  s.fetched.Nodup ∧
  (s.pages.map Page.url).Nodup ∧
  (∀ u ∈ s.pages.map Page.url, u ∈ s.visited) ∧
  (∀ u ∈ s.pages.map Page.url, web u ≠ none) ∧
  (∀ u ∈ s.visited, web u ≠ none → u ∈ s.pages.map Page.url)

/-- The dedup invariant is preserved by the loop, for any link policy. -/
theorem crawlLoop_dinv (links : List String → String → Node → List String)
    (web : String → Option Node) (conv : Node → String)
    (fuel : Nat) (s : CrawlState) (hs : DInv web s) :
    DInv web (crawlLoop links web conv fuel s) := by
  refine crawlLoop_preserve links web conv (DInv web) ?_ ?_ ?_ fuel s hs
  · intro s cur rest _ _ h; exact h
  · intro s cur rest hq hv hw h
    obtain ⟨hA, hB, hC, hD, hE, hF⟩ := h
    have hcur : cur ∉ s.fetched := hA ▸ not_mem_of_contains_false hv
    refine ⟨by rw [hA], ?_, hC, ?_, hE, ?_⟩
    · simp [List.nodup_append, hB, hcur]
    · intro u hu; exact List.mem_append_left _ (hD u hu)
    · intro u hu hne
      rcases List.mem_append.mp hu with hu | hu
      · exact hF u hu hne
      · simp at hu; exact absurd hw (hu ▸ hne)
  · intro s cur rest doc hq hv hw h
    obtain ⟨hA, hB, hC, hD, hE, hF⟩ := h
    have hcur : cur ∉ s.visited := not_mem_of_contains_false hv
    have hcurf : cur ∉ s.fetched := hA ▸ hcur
    have hcurp : cur ∉ s.pages.map Page.url := fun hc => hcur (hD cur hc)
    refine ⟨by rw [hA], ?_, ?_, ?_, ?_, ?_⟩
    · simp [List.nodup_append, hB, hcurf]
    · simp only [List.map_append, List.map_cons, List.map_nil]
      simp [List.nodup_append, hC, hcurp]
    · intro u hu
      simp only [List.map_append, List.map_cons, List.map_nil] at hu
      rcases List.mem_append.mp hu with hu | hu
      · exact List.mem_append_left _ (hD u hu)
      · simp at hu; exact List.mem_append_right _ (by simp [hu])
    · intro u hu
      simp only [List.map_append, List.map_cons, List.map_nil] at hu
      rcases List.mem_append.mp hu with hu | hu
      · exact hE u hu
      · simp at hu; rw [hu, hw]; exact fun hc => Option.noConfusion hc
    · intro u hu hne
      simp only [List.map_append, List.map_cons, List.map_nil]
      rcases List.mem_append.mp hu with hu | hu
      · exact List.mem_append_left _ (hF u hu hne)
      · simp at hu; exact List.mem_append_right _ (by simp [hu])

/-- A link accepted with an empty visited filter and still unvisited is
accepted with any visited filter. -/
theorem processHref_of_not_visited (cfg : ScopeCfg) (visited : List String)
    (cur href n : String) (h : processHref cfg [] cur href = some n)
    (hn : n ∉ visited) : processHref cfg visited cur href = some n := by
  unfold processHref at h ⊢
  by_cases h0 : href = ""
  · simp [h0] at h
  · simp only [h0, if_false] at h ⊢
    by_cases h1 : isAssetHref href
    · simp [h1] at h
    · simp only [h1, Bool.false_eq_true, if_false] at h ⊢
      cases hr : resolveM href cur with
      | none => rw [hr] at h; exact absurd h (by simp)
      | some u0 =>
        rw [hr] at h
        simp only [List.contains, List.elem_eq_mem, List.not_mem_nil,
          decide_False, Bool.not_false, Bool.and_true] at h
        split at h
        · rename_i hcond
          have hval : urlToString { u0 with hash := "" } = n :=
            Option.some.inj h
          have hnc : visited.contains n = false := by
            cases hc : visited.contains n
            · rfl
            · exact absurd (List.elem_iff.mp hc) hn
          simp only [hval, hnc, Bool.not_false, Bool.and_true, hcond, if_true]
        · exact absurd h (by simp)

/-- Membership in the offered links survives strengthening the visited
filter as long as the link is unvisited. -/
theorem mem_linksIndex_of_not_visited (cfg : ScopeCfg) (visited : List String)
    (cur v : String) (doc : Node) (hv : v ∈ linksIndex cfg [] cur doc)
    (hnv : v ∉ visited) : v ∈ linksIndex cfg visited cur doc := by
  rcases List.mem_filterMap.mp hv with ⟨href, hh, hp⟩
  exact List.mem_filterMap.mpr
    ⟨href, hh, processHref_of_not_visited cfg visited cur href v hp hnv⟩

/-- The closure invariant: every link any visited page offers (with the
empty visited filter) is itself visited or still queued. -/
def CInv (cfg : ScopeCfg) (web : String → Option Node) (s : CrawlState) :
    Prop :=
  ∀ u ∈ s.visited, ∀ doc, web u = some doc →
    ∀ v ∈ linksIndex cfg [] u doc, v ∈ s.visited ∨ v ∈ s.queue

/-- The closure invariant is preserved by the index-engine loop. -/
theorem crawlLoop_cinv (cfg : ScopeCfg) (web : String → Option Node)
    (conv : Node → String) (fuel : Nat) (s : CrawlState)
    (hs : CInv cfg web s) :
    CInv cfg web (crawlLoop (linksIndex cfg) web conv fuel s) := by
  refine crawlLoop_preserve (linksIndex cfg) web conv (CInv cfg web)
    ?_ ?_ ?_ fuel s hs
  · intro s cur rest hq hv h
    intro u hu doc hw v hvl
    rcases h u hu doc hw v hvl with hc | hc
    · exact Or.inl hc
    · rw [hq] at hc
      rcases List.mem_cons.mp hc with hc | hc
      · exact Or.inl (hc ▸ List.elem_iff.mp hv)
      · exact Or.inr hc
  · intro s cur rest hq hv hw h
    intro u hu doc hwd v hvl
    rcases List.mem_append.mp hu with hu | hu
    · rcases h u hu doc hwd v hvl with hc | hc
      · exact Or.inl (List.mem_append_left _ hc)
      · rw [hq] at hc
        rcases List.mem_cons.mp hc with hc | hc
        · exact Or.inl (List.mem_append_right _ (by simp [hc]))
        · exact Or.inr hc
    · simp at hu
      rw [hu, hw] at hwd
      exact absurd hwd (by simp)
  · intro s cur rest doc hq hv hw h
    intro u hu doc2 hwd v hvl
    rcases List.mem_append.mp hu with hu | hu
    · rcases h u hu doc2 hwd v hvl with hc | hc
      · exact Or.inl (List.mem_append_left _ hc)
      · rw [hq] at hc
        rcases List.mem_cons.mp hc with hc | hc
        · exact Or.inl (List.mem_append_right _ (by simp [hc]))
        · exact Or.inr (List.mem_append_left _ hc)
    · simp at hu
      subst hu
      rw [hw] at hwd
      have hdoc : doc = doc2 := Option.some.inj hwd
      subst hdoc
      by_cases hmem : v ∈ s.visited ++ [u]
      · exact Or.inl hmem
      · refine Or.inr (List.mem_append_right _ ?_)
        exact mem_linksIndex_of_not_visited cfg (s.visited ++ [u]) u v doc
          hvl hmem

/-! Claim theorems. -/

/-- C1: in every crawl of the engine loop (under any link policy,
covering both src/index.ts and src/unnamed/part_000), each URL is fetched
at most once and each URL appears among the recorded pages at most once:
the loop checks the visited set at dequeue and adds the URL to visited
before fetching. -/
theorem claim1_crawl_dedup
    (links : List String → String → Node → List String)
    (web : String → Option Node) (conv : Node → String)
    (fuel : Nat) (seed : String) :
    (crawlLoop links web conv fuel ⟨[seed], [], [], []⟩).fetched.Nodup ∧
    ((crawlLoop links web conv fuel ⟨[seed], [], [], []⟩).pages.map
      Page.url).Nodup := by
  have h : DInv web (crawlLoop links web conv fuel ⟨[seed], [], [], []⟩) :=
    crawlLoop_dinv links web conv fuel ⟨[seed], [], [], []⟩
      ⟨rfl, List.nodup_nil, by simp, by simp, by simp, by simp⟩
  exact ⟨h.2.1, h.2.2.1⟩

/-- C9: the output assembly is the title line followed by exactly one
header-content-separator section per page, in page order, with no
filtering, reordering or deduplication. -/
theorem claim9_render_structure (pages : List Page) :
    renderOutput pages = "# Crawled Website Content\n\n" ++ sectionsOf pages := by
  unfold renderOutput
  suffices h : ∀ (ps : List Page) (acc : String),
      ps.foldl (fun acc p => acc ++ ("## " ++ p.url ++ "\n\n") ++
        (p.content ++ "\n\n") ++ "---\n\n") acc = acc ++ sectionsOf ps by
    exact h pages _
  intro ps
  induction ps with
  | nil => intro acc; simp [sectionsOf, String.append_empty]
  | cons p ps ih =>
    intro acc
    rw [List.foldl_cons, ih]
    simp only [sectionsOf, String.append_assoc]

/-- C3 counterexample: on an input that cannot be parsed as a URL,
normalizeUrl does not fail; it returns the input string itself as its
value. -/
theorem claim3_counter :
    parseURL "not a url" = none ∧ normalizeUrl "not a url" = "not a url" := by
  decide

/-- C3 amended: when the input cannot be parsed, normalizeUrl returns the
input unchanged instead of failing; a parse or resolution failure during
link extraction makes the link contribute nothing to the queue. -/
theorem claim3_normalize_fallback :
    (∀ s, parseURL s = none → normalizeUrl s = s) ∧
    (∀ (cfg : ScopeCfg) (visited : List String) (cur href : String),
      resolveM href cur = none → processHref cfg visited cur href = none) := by
  constructor
  · intro s h
    unfold normalizeUrl
    rw [h]
  · intro cfg visited cur href h
    unfold processHref
    by_cases h0 : href = ""
    · simp [h0]
    · simp only [h0, if_false]
      by_cases h1 : isAssetHref href
      · simp [h1]
      · simp only [h1, Bool.false_eq_true, if_false, h]

/-- C3 witness: the amended behavior at concrete inputs; the reference
that cannot resolve is the scheme-relative reference with an empty host,
which new URL also rejects. -/
theorem claim3_normalize_fallback_witness :
    normalizeUrl "not a url" = "not a url" ∧
    processHref ⟨"a.com", "/"⟩ [] "https://a.com/" "//" = none :=
  ⟨claim3_normalize_fallback.1 "not a url" (by decide),
   claim3_normalize_fallback.2 ⟨"a.com", "/"⟩ [] "https://a.com/" "//"
     (by decide)⟩

/-- A page whose single anchor names an image path carrying a fragment. -/
def doc4 : Node :=
  .elem "html" [] (.cons (.elem "a" [("href", "/img.png#top")] .nil) .nil)

/-- A one-page site at https://a.com/ serving doc4. -/
def web4 : String → Option Node := fun s =>
  if s = "https://a.com/" then some doc4 else none

/-- C4 counterexample: the asset filter tests the raw href string, so a
URL whose path ends in .png is enqueued and fetched when the href carries
a trailing fragment. -/
theorem claim4_counter :
    "https://a.com/img.png" ∈
      (crawlIndex ⟨"a.com", "/"⟩ web4 (fun _ => "") 5 "https://a.com/").fetched ∧
    (parseURL "https://a.com/img.png").map URLRec.path = some "/img.png" ∧
    strEndsWith "/img.png" ".png" = true := by
  decide

/-- C4 amended: a discovered href ending, case-insensitively, in a known
static-asset extension is rejected during link extraction and never
enqueued, regardless of scope, in both engines; hrefs whose resolved path
ends in such an extension but whose raw string does not (a trailing query
or fragment) are not rejected. -/
theorem claim4_asset_href_rejected (cfg : ScopeCfg) (visited : List String)
    (cur href : String) (h : isAssetHref href = true) :
    processHref cfg visited cur href = none ∧
    ∀ bd, processHref000 bd visited cur href = none := by
  constructor
  · unfold processHref
    by_cases h0 : href = "" <;> simp [h0, h]
  · intro bd
    unfold processHref000
    by_cases h0 : href = "" <;> simp [h0, h]

/-- C4 witness: a stylesheet href is dropped by both engines even though
it is in scope. -/
theorem claim4_asset_href_rejected_witness :
    processHref ⟨"a.com", "/"⟩ [] "https://a.com/" "/style.CSS" = none ∧
    ∀ bd, processHref000 bd [] "https://a.com/" "/style.CSS" = none :=
  claim4_asset_href_rejected ⟨"a.com", "/"⟩ [] "https://a.com/" "/style.CSS"
    (by decide)

/-- A page on www.example.com linking to the bare domain. -/
def doc5 : Node :=
  .elem "html" []
    (.cons (.elem "a" [("href", "https://example.com/page")] .nil) .nil)

/-- A one-page site at https://www.example.com/ serving doc5. -/
def web5 : String → Option Node := fun s =>
  if s = "https://www.example.com/" then some doc5 else none

/-- C5 counterexample: with seed https://www.example.com/ (hostname
www.example.com, base path /), a link whose hostname example.com differs
from the seed hostname is enqueued and fetched, because the domain check
strips "www." before comparing. -/
theorem claim5_counter :
    parseURL "https://www.example.com/" =
      some ⟨"https", "www.example.com", "/", "", ""⟩ ∧
    (parseURL "https://example.com/page").map URLRec.host =
      some "example.com" ∧
    "https://example.com/page" ∈
      (crawlIndex ⟨"www.example.com", "/"⟩ web5 (fun _ => "") 5
        "https://www.example.com/").fetched := by
  decide

/-- C5 amended: a link whose hostname differs from the seed hostname even
after removing the first occurrence of "www." from each side is never
enqueued, and a link whose trailing-slash-normalized path does not start
with the base path is never enqueued; hostnames that agree after the
"www." removal (such as example.com against seed www.example.com) are in
scope although they differ literally. -/
theorem claim5_scope_exclusion (cfg : ScopeCfg) (visited : List String)
    (cur href : String) (u : URLRec) (hres : resolveM href cur = some u)
    (hmis : sameDomainCheck u.host cfg.baseDomain = false ∨
      strStartsWith (ensureSlash u.path) cfg.basePath = false) :
    processHref cfg visited cur href = none := by
  unfold processHref
  by_cases h0 : href = ""
  · simp [h0]
  · simp only [h0, if_false]
    by_cases h1 : isAssetHref href
    · simp [h1]
    · simp only [h1, Bool.false_eq_true, if_false, hres]
      rcases hmis with hm | hm <;> simp [hm]

/-- C5 witness: the two scope-exclusion examples of the claim, a
cross-domain link and a link outside the base path. -/
theorem claim5_scope_exclusion_witness :
    processHref ⟨"a.com", "/"⟩ [] "https://a.com/"
      "https://other.com/page" = none ∧
    processHref ⟨"a.com", "/docs/"⟩ [] "https://a.com/docs/"
      "https://a.com/blog/post" = none :=
  ⟨claim5_scope_exclusion ⟨"a.com", "/"⟩ [] "https://a.com/"
      "https://other.com/page" ⟨"https", "other.com", "/page", "", ""⟩
      (by decide) (Or.inl (by decide)),
   claim5_scope_exclusion ⟨"a.com", "/docs/"⟩ [] "https://a.com/docs/"
      "https://a.com/blog/post" ⟨"https", "a.com", "/blog/post", "", ""⟩
      (by decide) (Or.inr (by decide))⟩

/-- C6 counterexample: the hostnames foo.www.example.com and
foo.example.com are equal under the domain check of the code, although
neither starts with "www." and they are unequal after stripping a leading
"www." label; a non-leading "www." does affect the comparison. -/
theorem claim6_counter :
    sameDomainCheck "foo.www.example.com" "foo.example.com" = true ∧
    ¬ (stripLeadingWww "foo.www.example.com" =
        stripLeadingWww "foo.example.com") := by
  decide

/-- An unmatched pattern leaves the list unchanged. -/
theorem removeFirstSub_of_hasSub_false (pat : List Char) :
    ∀ cs, hasSub pat cs = false → removeFirstSub pat cs = cs := by
  intro cs
  induction cs with
  | nil => intro _; rfl
  | cons c cs ih =>
    intro h
    unfold hasSub at h
    rw [Bool.or_eq_false_iff] at h
    unfold removeFirstSub
    rw [h.1, ih h.2]
    simp

/-- Under the side condition of the amended claim, the first-occurrence
removal of "www." agrees with leading-label stripping. -/
theorem stripFirstWww_eq_leading (h : String)
    (hc : strStartsWith h "www." = true ∨ hasSub "www.".data h.data = false) :
    stripFirstWww h = stripLeadingWww h := by
  rcases hc with hc | hc
  · unfold stripFirstWww stripLeadingWww
    rw [hc, if_pos rfl]
    unfold strStartsWith at hc
    cases hd : h.data with
    | nil => rw [hd] at hc; exact absurd hc (by decide)
    | cons c cs =>
      rw [hd] at hc
      unfold removeFirstSub
      rw [hc]
      simp
  · unfold stripFirstWww stripLeadingWww
    rw [removeFirstSub_of_hasSub_false _ _ hc]
    have hsw : strStartsWith h "www." = false := by
      cases hs : strStartsWith h "www."
      · rfl
      · exfalso
        unfold strStartsWith at hs
        cases hd : h.data with
        | nil => rw [hd] at hs; exact absurd hs (by decide)
        | cons c cs =>
          rw [hd] at hs
          have : hasSub "www.".data h.data = true := by
            rw [hd]; unfold hasSub; rw [hs]; simp
          rw [this] at hc; cases hc
    rw [hsw]
    simp

/-- C6 amended: the domain check compares hostnames with the first
occurrence of "www." removed from each side; when "www." occurs in a
hostname only as a leading label (or not at all) this coincides with the
claimed leading-label stripping, but a non-leading "www." is also
removed. -/
theorem claim6_domain_check (h1 h2 : String)
    (hc1 : strStartsWith h1 "www." = true ∨ hasSub "www.".data h1.data = false)
    (hc2 : strStartsWith h2 "www." = true ∨ hasSub "www.".data h2.data = false) :
    sameDomainCheck h1 h2 = true ↔
      stripLeadingWww h1 = stripLeadingWww h2 := by
  unfold sameDomainCheck
  rw [stripFirstWww_eq_leading h1 hc1, stripFirstWww_eq_leading h2 hc2,
    beq_iff_eq]

/-- C6 witness: on the pair the spec names, the check equals
leading-label comparison and both hold. -/
theorem claim6_domain_check_witness :
    (sameDomainCheck "www.example.com" "example.com" = true ↔
      stripLeadingWww "www.example.com" = stripLeadingWww "example.com") ∧
    sameDomainCheck "www.example.com" "example.com" = true :=
  ⟨claim6_domain_check "www.example.com" "example.com"
      (Or.inl (by decide)) (Or.inr (by decide)),
   by decide⟩

/-- A document whose navigation bar holds one anchor and whose body holds
another. -/
def docC2 : Node :=
  .elem "html" []
    (.cons (.elem "nav" [] (.cons (.elem "a" [("href", "/x")] .nil) .nil))
      (.cons (.elem "a" [("href", "/y")] .nil) .nil))

/-- C2 counterexample: in the src/unnamed/part_000 engine the cleaner
runs before link extraction, so on docC2 the links offered to the queue
lack the in-scope anchor inside the navigation bar that extraction from
the unmodified tree yields. -/
theorem claim2_counter :
    links000 "a.com" ["https://a.com/"] "https://a.com/" docC2 =
      ["https://a.com/y"] ∧
    (extractHrefsN docC2).filterMap
      (processHref000 "a.com" ["https://a.com/"] "https://a.com/") =
      ["https://a.com/x", "https://a.com/y"] := by
  decide

/-- C2 amended: in the src/index.ts engine the offered links are computed
from the unmodified parsed tree (extraction precedes cleaning), so every
anchor of the raw tree whose href passes the filters is offered to the
queue and no anchor is hidden by the cleaner. -/
theorem claim2_links_from_raw_tree (cfg : ScopeCfg) (visited : List String)
    (cur : String) (doc : Node) (href u : String)
    (h1 : href ∈ extractHrefsN doc)
    (h2 : processHref cfg visited cur href = some u) :
    u ∈ linksIndex cfg visited cur doc :=
  List.mem_filterMap.mpr ⟨href, h1, h2⟩

/-- C2 witness: the navigation anchor of docC2, hidden in the part_000
engine, is offered by the index engine. -/
theorem claim2_links_from_raw_tree_witness :
    "https://a.com/x" ∈
      linksIndex ⟨"a.com", "/"⟩ ["https://a.com/"] "https://a.com/" docC2 :=
  claim2_links_from_raw_tree ⟨"a.com", "/"⟩ ["https://a.com/"]
    "https://a.com/" docC2 "/x" "https://a.com/x" (by decide) (by decide)

/-- The first iteration on a fresh seed: the seed is dequeued, marked
visited, logged as fetched, and on success its page is recorded and its
links queued. -/
theorem crawlLoop_succ_fresh (links : List String → String → Node → List String)
    (web : String → Option Node) (conv : Node → String)
    (fuel : Nat) (seed : String) :
    crawlLoop links web conv (fuel + 1) ⟨[seed], [], [], []⟩ =
      match web seed with
      | none => crawlLoop links web conv fuel ⟨[], [seed], [], [seed]⟩
      | some doc => crawlLoop links web conv fuel
          ⟨links [seed] seed doc, [seed], [⟨seed, conv doc⟩], [seed]⟩ := by
  rfl

/-- C10: the seed is exempt from the asset filter and the scope check,
which apply only inside link extraction: whatever the normalized seed
looks like, as long as it parses, it is dequeued and fetched, and when
the fetch succeeds it is recorded in the result. -/
theorem claim10_seed_exempt (web : String → Option Node)
    (conv : Node → String) (n : Nat) (startUrl : String) (so : URLRec)
    (hso : parseURL (normalizeUrl startUrl) = some so) :
    ∃ st, crawlWebsite web conv (n + 1) startUrl = some st ∧
      normalizeUrl startUrl ∈ st.fetched ∧
      (web (normalizeUrl startUrl) ≠ none →
        normalizeUrl startUrl ∈ st.pages.map Page.url) := by
  unfold crawlWebsite
  simp only [hso]
  refine ⟨_, rfl, ?_, ?_⟩
  · unfold crawlIndex
    rw [crawlLoop_succ_fresh]
    cases hw : web (normalizeUrl startUrl) with
    | none =>
      exact crawlLoop_fetched_mono _ _ _ _ n _ (by simp)
    | some doc =>
      exact crawlLoop_fetched_mono _ _ _ _ n _ (by simp)
  · intro hne
    unfold crawlIndex
    rw [crawlLoop_succ_fresh]
    cases hw : web (normalizeUrl startUrl) with
    | none => exact absurd hw hne
    | some doc =>
      exact crawlLoop_pages_mono _ _ _ _ n _ (by simp)

/-- A one-page site whose only page sits at an image-extension URL. -/
def web10 : String → Option Node := fun s =>
  if s = "https://a.com/logo.png" then some (.elem "html" [] .nil) else none

/-- C10 witness: a seed whose path ends in a static-asset extension is
still fetched and recorded. -/
theorem claim10_seed_exempt_witness :
    ∃ st, crawlWebsite web10 (fun _ => "") 3 "https://a.com/logo.png" =
        some st ∧
      normalizeUrl "https://a.com/logo.png" ∈ st.fetched ∧
      (web10 (normalizeUrl "https://a.com/logo.png") ≠ none →
        normalizeUrl "https://a.com/logo.png" ∈ st.pages.map Page.url) :=
  claim10_seed_exempt web10 (fun _ => "") 2 "https://a.com/logo.png"
    ⟨"https", "a.com", "/logo.png", "", ""⟩ (by decide)

/-- The data of an appended string. -/
theorem data_append (s t : String) : (s ++ t).data = s.data ++ t.data := rfl

/-- A false contains test on characters is non-membership and back. -/
theorem char_contains_false {stops : List Char} {c : Char} (h : c ∉ stops) :
    stops.contains c = false := by
  cases hc : stops.contains c
  · rfl
  · exact absurd (List.elem_iff.mp hc) h

/-- takeUntil splits exactly at the boundary when the first part is free
of stop characters and the second is empty or begins with one. -/
theorem takeUntil_append (stops : List Char) :
    ∀ (a b : List Char), (∀ c ∈ a, stops.contains c = false) →
      (b = [] ∨ ∃ c cs, b = c :: cs ∧ stops.contains c = true) →
      takeUntil stops (a ++ b) = (a, b) := by
  intro a
  induction a with
  | nil =>
    intro b _ hb
    rcases hb with hb | ⟨c, cs, hb, hc⟩
    · subst hb; rfl
    · subst hb
      show (if stops.contains c = true then (([] : List Char), c :: cs)
        else let p := takeUntil stops cs; (c :: p.1, p.2)) = ([], c :: cs)
      rw [hc, if_pos rfl]
  | cons c a ih =>
    intro b hc hb
    rw [List.cons_append]
    have h0 : stops.contains c = false := hc c (List.mem_cons_self _ _)
    show (if stops.contains c = true then (([] : List Char), c :: (a ++ b))
        else let p := takeUntil stops (a ++ b); (c :: p.1, p.2)) = (c :: a, b)
    rw [h0, if_neg (by decide)]
    rw [ih b (fun d hd => hc d (List.mem_cons_of_mem _ hd)) hb]

/-- Mapping the lowercasing over already-fixed characters is the
identity. -/
theorem map_charLower_id : ∀ (l : List Char), (∀ c ∈ l, charLower c = c) →
    l.map charLower = l := by
  intro l h
  induction l with
  | nil => rfl
  | cons c cs ih =>
    simp only [List.map_cons, h c (List.mem_cons_self _ _)]
    rw [ih (fun d hd => h d (List.mem_cons_of_mem _ hd))]

/-- A string starting with a slash has a slash-headed character list. -/
theorem data_of_slash_head (s : String) (h : strStartsWith s "/" = true) :
    ∃ t, s.data = '/' :: t := by
  unfold strStartsWith at h
  cases hd : s.data with
  | nil => rw [hd] at h; exact absurd h (by decide)
  | cons c cs =>
    rw [hd] at h
    have : ('/' == c && List.isPrefixOf [] cs) = true := h
    rw [Bool.and_eq_true, beq_iff_eq] at this
    exact ⟨cs, by rw [this.1.symm]⟩

/-- A true negation means a false Boolean. -/
theorem bool_not_true {b : Bool} (h : (!b) = true) : b = false := by
  cases b
  · rfl
  · exact absurd h (by decide)

/-- Parsing a serialized authority with a slash-headed tail recovers the
scheme and host and hands the tail to the path-query-fragment split. -/
theorem parseURL_prefix (sc ho : String) (tail : List Char)
    (h1 : sc.data.isEmpty = false)
    (hallAlpha : sc.data.all Char.isAlpha = true)
    (hscL : ∀ c ∈ sc.data, charLower c = c)
    (hscStops : ∀ c ∈ sc.data, List.contains [':'] c = false)
    (h3 : ho.data.isEmpty = false)
    (hhoL : ∀ c ∈ ho.data, charLower c = c)
    (hhoStops : ∀ c ∈ ho.data, List.contains ['/', '?', '#'] c = false)
    (htail : ∃ t, tail = '/' :: t) :
    parseURL (String.mk (sc.data ++ (':' :: '/' :: '/' :: (ho.data ++ tail)))) =
      (let pp := takeUntil ['?', '#'] tail
       let pq : List Char × List Char :=
         match pp.2 with
         | '?' :: qs => takeUntil ['#'] qs
         | r4 => ([], r4)
       let hashCs : List Char :=
         match pq.2 with
         | '#' :: hs => hs
         | _ => []
       some { scheme := sc, host := ho,
              path := if pp.1.isEmpty then "/" else String.mk pp.1,
              query := String.mk pq.1, hash := String.mk hashCs }) := by
  obtain ⟨t, ht⟩ := htail
  have e1 := takeUntil_append [':'] sc.data
    (':' :: '/' :: '/' :: (ho.data ++ tail)) hscStops
    (Or.inr ⟨':', '/' :: '/' :: (ho.data ++ tail), rfl, by decide⟩)
  have e2 := takeUntil_append ['/', '?', '#'] ho.data tail hhoStops
    (Or.inr ⟨'/', t, ht, by decide⟩)
  have e3 := map_charLower_id sc.data hscL
  have e4 := map_charLower_id ho.data hhoL
  unfold parseURL
  rw [show (String.mk (sc.data ++ (':' :: '/' :: '/' :: (ho.data ++ tail)))).data
      = sc.data ++ (':' :: '/' :: '/' :: (ho.data ++ tail)) from rfl]
  simp only [e1, e2, e3, e4, h1, hallAlpha, h3, Bool.or_self, Bool.not_true,
    Bool.false_eq_true, if_false]


/-- A string equals the string of its character data. -/
theorem str_eq_of_data {s : String} {l : List Char} (h : s.data = l) :
    s = String.mk l := by
  cases s
  cases h
  rfl

/-- Serializing a well-formed URL record and parsing it back returns the
record: the roundtrip behind the fragment-erasure reasoning. -/
theorem parse_urlToString (u : URLRec) (h : WFb u = true) :
    parseURL (urlToString u) = some u := by
  obtain ⟨sc, ho, pa, qu, ha⟩ := u
  simp only [WFb, Bool.and_eq_true] at h
  obtain ⟨⟨⟨⟨⟨⟨h1, h2⟩, h3⟩, h4⟩, h5⟩, h6⟩, h7⟩ := h
  have hsc : ∀ c ∈ sc.data, c.isAlpha = true ∧ charLower c = c := by
    intro c hc
    have hx := (List.all_eq_true.mp h2) c hc
    rw [Bool.and_eq_true, beq_iff_eq] at hx
    exact hx
  have hIsE : sc.data.isEmpty = false := bool_not_true h1
  have hall : sc.data.all Char.isAlpha = true :=
    List.all_eq_true.mpr (fun c hc => (hsc c hc).1)
  have hscL : ∀ c ∈ sc.data, charLower c = c := fun c hc => (hsc c hc).2
  have hscStops : ∀ c ∈ sc.data, List.contains [':'] c = false := by
    intro c hc
    refine char_contains_false ?_
    intro hm
    have hceq : c = ':' := by simpa using hm
    have hx := (hsc c hc).1
    rw [hceq] at hx
    exact absurd hx (by decide)
  have hIsE3 : ho.data.isEmpty = false := bool_not_true h3
  have hhoL : ∀ c ∈ ho.data, charLower c = c := by
    intro c hc
    have hx := (List.all_eq_true.mp h4) c hc
    rw [Bool.and_eq_true, beq_iff_eq] at hx
    exact hx.2
  have hhoStops : ∀ c ∈ ho.data, List.contains ['/', '?', '#'] c = false := by
    intro c hc
    have hx := (List.all_eq_true.mp h4) c hc
    rw [Bool.and_eq_true] at hx
    exact bool_not_true hx.1
  obtain ⟨pa', hpa'⟩ := data_of_slash_head pa h5
  have hpaStops : ∀ c ∈ pa.data, List.contains ['?', '#'] c = false :=
    fun c hc => bool_not_true ((List.all_eq_true.mp h6) c hc)
  have hquStops : ∀ c ∈ qu.data, List.contains ['#'] c = false :=
    fun c hc => bool_not_true ((List.all_eq_true.mp h7) c hc)
  have hpaE : pa.data.isEmpty = false := by rw [hpa']; rfl
  by_cases hqe : qu = "" <;> by_cases hhe : ha = ""
  · have hdata : (urlToString ⟨sc, ho, pa, qu, ha⟩).data =
        sc.data ++ (':' :: '/' :: '/' :: (ho.data ++ pa.data)) := by
      simp only [urlToString, if_pos hqe, if_pos hhe, data_append,
        show ("".data : List Char) = [] from rfl, List.append_nil,
        List.append_assoc]
      rfl
    rw [str_eq_of_data hdata,
      parseURL_prefix sc ho pa.data hIsE hall hscL hscStops hIsE3 hhoL
        hhoStops ⟨pa', hpa'⟩]
    have e5 : takeUntil ['?', '#'] pa.data = (pa.data, []) := by
      have hx := takeUntil_append ['?', '#'] pa.data [] hpaStops (Or.inl rfl)
      rwa [List.append_nil] at hx
    simp only [e5, hpaE, Bool.false_eq_true, if_false]
    rw [hqe, hhe]
  · have hdata : (urlToString ⟨sc, ho, pa, qu, ha⟩).data =
        sc.data ++ (':' :: '/' :: '/' :: (ho.data ++ (pa.data ++
          ('#' :: ha.data)))) := by
      simp only [urlToString, if_pos hqe, if_neg hhe, data_append,
        show ("".data : List Char) = [] from rfl, List.append_nil,
        List.append_assoc]
      rfl
    rw [str_eq_of_data hdata,
      parseURL_prefix sc ho (pa.data ++ ('#' :: ha.data)) hIsE hall hscL
        hscStops hIsE3 hhoL hhoStops
        ⟨pa' ++ ('#' :: ha.data), by rw [hpa']; rfl⟩]
    have e5 : takeUntil ['?', '#'] (pa.data ++ ('#' :: ha.data)) =
        (pa.data, '#' :: ha.data) :=
      takeUntil_append ['?', '#'] pa.data ('#' :: ha.data) hpaStops
        (Or.inr ⟨'#', ha.data, rfl, by decide⟩)
    simp only [e5, hpaE, Bool.false_eq_true, if_false]
    rw [hqe]
    rfl
  · have hdata : (urlToString ⟨sc, ho, pa, qu, ha⟩).data =
        sc.data ++ (':' :: '/' :: '/' :: (ho.data ++ (pa.data ++
          ('?' :: qu.data)))) := by
      simp only [urlToString, if_neg hqe, if_pos hhe, data_append,
        show ("".data : List Char) = [] from rfl, List.append_nil,
        List.append_assoc]
      rfl
    rw [str_eq_of_data hdata,
      parseURL_prefix sc ho (pa.data ++ ('?' :: qu.data)) hIsE hall hscL
        hscStops hIsE3 hhoL hhoStops
        ⟨pa' ++ ('?' :: qu.data), by rw [hpa']; rfl⟩]
    have e5 : takeUntil ['?', '#'] (pa.data ++ ('?' :: qu.data)) =
        (pa.data, '?' :: qu.data) :=
      takeUntil_append ['?', '#'] pa.data ('?' :: qu.data) hpaStops
        (Or.inr ⟨'?', qu.data, rfl, by decide⟩)
    have e6 : takeUntil ['#'] qu.data = (qu.data, []) := by
      have hx := takeUntil_append ['#'] qu.data [] hquStops (Or.inl rfl)
      rwa [List.append_nil] at hx
    simp only [e5, e6, hpaE, Bool.false_eq_true, if_false]
    rw [hhe]
  · have hdata : (urlToString ⟨sc, ho, pa, qu, ha⟩).data =
        sc.data ++ (':' :: '/' :: '/' :: (ho.data ++ (pa.data ++
          ('?' :: (qu.data ++ ('#' :: ha.data)))))) := by
      simp only [urlToString, if_neg hqe, if_neg hhe, data_append,
        show ("".data : List Char) = [] from rfl, List.append_nil,
        List.append_assoc]
      rfl
    rw [str_eq_of_data hdata,
      parseURL_prefix sc ho (pa.data ++ ('?' :: (qu.data ++ ('#' :: ha.data))))
        hIsE hall hscL hscStops hIsE3 hhoL hhoStops
        ⟨pa' ++ ('?' :: (qu.data ++ ('#' :: ha.data))), by rw [hpa']; rfl⟩]
    have e5 : takeUntil ['?', '#']
        (pa.data ++ ('?' :: (qu.data ++ ('#' :: ha.data)))) =
        (pa.data, '?' :: (qu.data ++ ('#' :: ha.data))) :=
      takeUntil_append ['?', '#'] pa.data _ hpaStops
        (Or.inr ⟨'?', _, rfl, by decide⟩)
    have e6 : takeUntil ['#'] (qu.data ++ ('#' :: ha.data)) =
        (qu.data, '#' :: ha.data) :=
      takeUntil_append ['#'] qu.data ('#' :: ha.data) hquStops
        (Or.inr ⟨'#', ha.data, rfl, by decide⟩)
    simp only [e5, e6, hpaE, Bool.false_eq_true, if_false]


/-- C8: normalization erases the fragment, so any two serializations of a
well-formed URL differing only in their fragment normalize to the same
string as the fragment-free serialization. -/
theorem claim8_fragment_equiv (u : URLRec) (f1 f2 : String)
    (h : WFb u = true) :
    normalizeUrl (urlToString { u with hash := f1 }) =
      normalizeUrl (urlToString { u with hash := f2 }) ∧
    normalizeUrl (urlToString { u with hash := f1 }) =
      normalizeUrl (urlToString { u with hash := "" }) := by
  obtain ⟨sc, ho, pa, qu, ha⟩ := u
  have key : ∀ f : String,
      normalizeUrl (urlToString ⟨sc, ho, pa, qu, f⟩) =
        urlToString ⟨sc, ho, pa, qu, ""⟩ := by
    intro f
    unfold normalizeUrl
    rw [parse_urlToString ⟨sc, ho, pa, qu, f⟩ h]
  exact ⟨(key f1).trans (key f2).symm, (key f1).trans (key "").symm⟩

/-- C8 witness: the three fragment variants of the spec normalize
identically. -/
theorem claim8_fragment_equiv_witness :
    normalizeUrl "https://a.com/x#sec1" = normalizeUrl "https://a.com/x#sec2" ∧
    normalizeUrl "https://a.com/x#sec1" = normalizeUrl "https://a.com/x" :=
  claim8_fragment_equiv ⟨"https", "a.com", "/x", "", ""⟩ "sec1" "sec2"
    (by decide)

/-- C7: when the crawl terminates, a URL whose fetch fails is absent from
the recorded pages, no URL is ever fetched twice (no retry), and the
failure is not fatal: every reachable URL is still visited, and every
reachable URL whose fetch succeeds is recorded in the result. -/
theorem claim7_fetch_failure_tolerance (cfg : ScopeCfg)
    (web : String → Option Node) (conv : Node → String) (fuel : Nat)
    (seed : String)
    (hterm : (crawlIndex cfg web conv fuel seed).queue = []) :
    (∀ u, web u = none →
      u ∉ (crawlIndex cfg web conv fuel seed).pages.map Page.url) ∧
    (crawlIndex cfg web conv fuel seed).fetched.Nodup ∧
    (∀ v, Reachable cfg web seed v →
      v ∈ (crawlIndex cfg web conv fuel seed).visited ∧
      (web v ≠ none →
        v ∈ (crawlIndex cfg web conv fuel seed).pages.map Page.url)) := by
  unfold crawlIndex at hterm ⊢
  have hD : DInv web (crawlLoop (linksIndex cfg) web conv fuel
      ⟨[seed], [], [], []⟩) :=
    crawlLoop_dinv (linksIndex cfg) web conv fuel ⟨[seed], [], [], []⟩
      ⟨rfl, List.nodup_nil, by simp, by simp, by simp, by simp⟩
  have hC : CInv cfg web (crawlLoop (linksIndex cfg) web conv fuel
      ⟨[seed], [], [], []⟩) := by
    refine crawlLoop_cinv cfg web conv fuel ⟨[seed], [], [], []⟩ ?_
    intro u hu
    exact absurd hu (List.not_mem_nil u)
  have hvis : ∀ w, Reachable cfg web seed w →
      w ∈ (crawlLoop (linksIndex cfg) web conv fuel
        ⟨[seed], [], [], []⟩).visited := by
    intro w hw
    induction hw with
    | base =>
      have habs := crawlLoop_queue_absorb (linksIndex cfg) web conv seed
        fuel ⟨[seed], [], [], []⟩ (Or.inr (by simp))
      rcases habs with h | h
      · exact h
      · rw [hterm] at h
        exact absurd h (List.not_mem_nil _)
    | step hu hwd hl ih =>
      rcases hC _ ih _ hwd _ hl with h | h
      · exact h
      · rw [hterm] at h
        exact absurd h (List.not_mem_nil _)
  refine ⟨?_, hD.2.1, ?_⟩
  · intro u hw hm
    exact (hD.2.2.2.2.1 u hm) hw
  · intro v hv
    exact ⟨hvis v hv, fun hne => hD.2.2.2.2.2 v (hvis v hv) hne⟩

/-- A site whose front page links to a live page and a dead page. -/
def doc7 : Node :=
  .elem "html" []
    (.cons (.elem "a" [("href", "/ok")] .nil)
      (.cons (.elem "a" [("href", "/bad")] .nil) .nil))

/-- The fetch-and-parse collaborator for doc7: the front page and the ok
page respond, the bad page fails. -/
def web7 : String → Option Node := fun s =>
  if s = "https://w.com/" then some doc7
  else if s = "https://w.com/ok" then some (.elem "html" [] .nil)
  else none

/-- C7 witness: the crawl of web7 terminates, the dead page is absent
from the result, and the other reachable page is present. -/
theorem claim7_fetch_failure_tolerance_witness :
    (crawlIndex ⟨"w.com", "/"⟩ web7 (fun _ => "") 10 "https://w.com/").queue
      = [] ∧
    "https://w.com/bad" ∉
      ((crawlIndex ⟨"w.com", "/"⟩ web7 (fun _ => "") 10
        "https://w.com/").pages.map Page.url) ∧
    "https://w.com/ok" ∈
      ((crawlIndex ⟨"w.com", "/"⟩ web7 (fun _ => "") 10
        "https://w.com/").pages.map Page.url) := by
  have hterm : (crawlIndex ⟨"w.com", "/"⟩ web7 (fun _ => "") 10
      "https://w.com/").queue = [] := by decide
  have H := claim7_fetch_failure_tolerance ⟨"w.com", "/"⟩ web7 (fun _ => "")
    10 "https://w.com/" hterm
  refine ⟨hterm, H.1 "https://w.com/bad" rfl, ?_⟩
  have hreach : Reachable ⟨"w.com", "/"⟩ web7 "https://w.com/"
      "https://w.com/ok" :=
    Reachable.step Reachable.base rfl
      (by decide :
        "https://w.com/ok" ∈
          linksIndex ⟨"w.com", "/"⟩ [] "https://w.com/" doc7)
  refine (H.2.2 "https://w.com/ok" hreach).2 ?_
  intro hcontra
  exact Option.noConfusion
    ((show web7 "https://w.com/ok" = some (Node.elem "html" [] .nil)
      from rfl).symm.trans hcontra)

end Crawllm
